import Mathlib

/-!
Verification of the dining-philosophers program (src/src/main.rs).

The program spawns five threads, one per philosopher; each philosopher
locks the fork at its `left` index, sleeps, locks the fork at its
`right` index, prints two lines, and releases both locks when the
guards go out of scope.  The fork table is a vector of five unit
mutexes; the last philosopher's index pair is deliberately reversed
(0, 4) instead of (4, 0) to break the circular wait.

The embedding below models:
  * the `Philosopher` struct and its constructor,
  * the `Table` of fork cells (a cell's state is `Option Nat`, the id
    of the thread currently holding it, `none` when unlocked),
  * the straight-line body of `eat` as a trace of events, with the
    RAII guards released in reverse declaration order at scope end,
  * the five-thread interleaving semantics as a transition system on
    program-counter vectors encoded as a natural number below 4^5.
-/

namespace DiningPhilosophers

/-- The `Philosopher` struct: a display name and the two fork indices. -/
structure Philosopher where
  name : String
  left : Nat
  right : Nat
  deriving DecidableEq

/-- `Philosopher::new`: builds the struct from the three arguments. -/
def Philosopher.new (name : String) (left : Nat) (right : Nat) : Philosopher :=
  ⟨name, left, right⟩

/-- The `Table` struct: a vector of fork cells.  Each cell models one
`Mutex<()>`; its runtime state is the id of the holding thread, or
`none` when the mutex is unlocked. -/
structure Table where
  forks : List (Option Nat)
  deriving DecidableEq

/-- The table built in `main`: five freshly created, unlocked mutexes. -/
def table : Table :=
  ⟨[none, none, none, none, none]⟩

/-- The fixed roster built in `main`, in source order.  The last
philosopher's pair is (0, 4), not (4, 0). -/
def philosophers : List Philosopher :=
  [Philosopher.new ("Judith Butler") 0 1,
   Philosopher.new ("Gilles Deleuze") 1 2,
   Philosopher.new ("Karl Marx") 2 3,
   Philosopher.new ("Emma Goldman") 3 4,
   Philosopher.new ("Michel Foucault") 0 4]

/-- Observable events of one thread running `eat`. -/
inductive Event where
  | acquire : Nat → Event
  | release : Nat → Event
  | sleepMs : Nat → Event
  | print : String → Event
  deriving DecidableEq

/-- The lock guards of `eat` in declaration order: `_left` guards the
fork at `self.left`, `_right` the fork at `self.right`. -/
def eatGuards (p : Philosopher) : List Nat :=
  [p.left, p.right]

/-- The straight-line body of `Philosopher::eat` (lines 39-47 of
main.rs): lock left fork, sleep 150 ms, lock right fork, print, sleep
1000 ms, print. -/
def eatBody (p : Philosopher) : List Event :=
  [Event.acquire p.left,
   Event.sleepMs 150,
   Event.acquire p.right,
   Event.print (p.name ++ " is eating."),
   Event.sleepMs 1000,
   Event.print (p.name ++ " is done eating.")]

/-- The full event trace of `eat`: the body followed by the automatic
release of the guards at scope end, in reverse declaration order. -/
def eat (p : Philosopher) : List Event :=
  eatBody p ++ (eatGuards p).reverse.map Event.release

/-- The console lines a thread running `eat` prints, in order. -/
def outputLines (p : Philosopher) : List String :=
  (eat p).filterMap fun e =>
    match e with
    | Event.print s => some s
    | _ => none

/-- Result of `Mutex::lock` on a mutex whose poison flag is `b`:
`Ok` with the guard when not poisoned, `Err` (a `PoisonError`) when
poisoned. -/
def mutexLock (poisoned : Bool) : Except Unit Unit :=
  if poisoned then Except.error () else Except.ok ()

/-- `Result::unwrap` as used in `eat`: returns the value on `Ok`,
panics (modelled as `none`, terminating the task) on `Err`. -/
def unwrapOrPanic (r : Except Unit Unit) : Option Unit :=
  match r with
  | Except.ok a => some a
  | Except.error _ => none

/-- Outcome of one fork acquisition in `eat`:
`table.forks[i].lock().unwrap()`. -/
def acquireOutcome (poisoned : Bool) : Option Unit :=
  unwrapOrPanic (mutexLock poisoned)

/-- The spawned thread handles of `main`: one per roster entry, each
sharing (an `Arc` clone of) the same table. -/
def handles : List (Philosopher × Table) :=
  philosophers.map fun p => (p, table)

/-- The join loop of `main`: `for h in handles { h.join().unwrap() }`.
Each thread result is `some ()` on normal completion and `none` if the
thread panicked; `unwrap` on a panicked thread panics the main thread
(modelled as `none`). -/
def joinAll : List (Option Unit) → Option Unit
  | [] => some ()
  | r :: rs =>
    match r with
    | some _ => joinAll rs
    | none => none

/-- The (left, right) fork-index pairs of the roster, in thread order. -/
def pairs : List (Nat × Nat) :=
  philosophers.map fun p => (p.left, p.right)

/-- Left fork index of thread `i`. -/
def leftIdx (i : Nat) : Nat :=
  (pairs.getD i (0, 0)).1

/-- Right fork index of thread `i`. -/
def rightIdx (i : Nat) : Nat :=
  (pairs.getD i (0, 0)).2

/-- Program counter of thread `i` in the encoded global state `c`
(base-4 digit `i` of `c`): 0 = not started, 1 = holding the left fork
(sleeping 150 ms before grabbing the right one), 2 = holding both
forks (eating), 3 = done, both forks released at scope end. -/
def pcOf (c i : Nat) : Nat :=
  c / 4 ^ i % 4

/-- Does thread `i` hold fork `f` in state `c`?  A thread holds its
left fork from pc 1 through pc 2, and its right fork at pc 2. -/
def holdsFork (c i f : Nat) : Bool :=
  (decide (1 ≤ pcOf c i) && decide (pcOf c i ≤ 2) && decide (f = leftIdx i)) ||
  (decide (pcOf c i = 2) && decide (f = rightIdx i))

/-- Is the mutex of fork `f` unlocked in state `c`? -/
def forkFree (c f : Nat) : Bool :=
  (List.range 5).all fun i => ! holdsFork c i f

/-- Can thread `i` take its next step in state `c`?  At pc 0 it needs
its left fork free, at pc 1 its right fork free, at pc 2 it can always
finish (the prints and sleeps never block); at pc 3 it is done. -/
def enabledB (c i : Nat) : Bool :=
  match pcOf c i with
  | 0 => forkFree c (leftIdx i)
  | 1 => forkFree c (rightIdx i)
  | 2 => true
  | _ => false

/-- The state after thread `i` takes its step: its pc digit grows by
one (no carry occurs because a thread only steps while its pc is at
most 2). -/
def stepCode (c i : Nat) : Nat :=
  c + 4 ^ i

/-- All five threads have finished `eat`. -/
def allDoneB (c : Nat) : Bool :=
  (List.range 5).all fun i => decide (pcOf c i = 3)

/-- Mutual exclusion: no fork is held by two threads at once. -/
def mutExB (c : Nat) : Bool :=
  (List.range 5).all fun f =>
    decide ((List.range 5).countP (fun i => holdsFork c i f) ≤ 1)

/-- Sum of the five program counters: a progress measure that grows by
one at every step and reaches 15 exactly when all threads are done. -/
def phaseSum (c : Nat) : Nat :=
  ((List.range 5).map (pcOf c)).sum

/-- One interleaving step of the system: some enabled thread `i < 5`
takes its next step. -/
def StepR (c d : Nat) : Prop :=
  ∃ i, i < 5 ∧ enabledB c i = true ∧ d = stepCode c i

/-- The states reachable from the initial state 0 (all threads at
pc 0, all forks free). -/
def Reachable (c : Nat) : Prop :=
  Relation.ReflTransGen StepR 0 c

/-- The fork table's runtime state in global state `c`: for each fork
index, the id of the thread currently holding it, `none` if unlocked. -/
def forksOf (c : Nat) : List (Option Nat) :=
  (List.range 5).map fun f => (List.range 5).find? fun i => holdsFork c i f

/-- `Inter ls o` says the line list `o` is an interleaving of the
per-thread line lists `ls`: the scheduler repeatedly picks some thread
`i` and emits its next pending line, until every list is drained.  The
console output of a run is exactly such an interleaving. -/
inductive Inter : List (List String) → List String → Prop
  | done : ∀ ls : List (List String), (∀ l, l ∈ ls → l = []) → Inter ls []
  | step : ∀ (ls : List (List String)) (i : Nat) (x : String)
      (xs : List String) (o : List String),
      ls.get? i = some (x :: xs) → Inter (ls.set i xs) o → Inter ls (x :: o)

end DiningPhilosophers

namespace DiningPhilosophers

/-- C10: the constructor `Philosopher::new(n, l, r)` returns a
`Philosopher` whose `name`, `left` and `right` fields are exactly the
three arguments; it is a pure constructor with no other effect. -/
theorem new_fields (n : String) (l r : Nat) :
    (Philosopher.new n l r).name = n ∧
    (Philosopher.new n l r).left = l ∧
    (Philosopher.new n l r).right = r :=
  ⟨rfl, rfl, rfl⟩

/-- C2: the driver builds exactly five philosophers whose (left, right)
pairs in roster order are (0,1), (1,2), (2,3), (3,4), (0,4): every
entry except the last is the ring-sequential pair (i, i+1), and the
last entry (ring position 4) is reversed to (0, 4). -/
theorem roster_pairs :
    philosophers.map (fun p => (p.left, p.right)) =
      (List.range 4).map (fun i => (i, i + 1)) ++ [(0, 4)] ∧
    philosophers.length = 5 := by
  constructor
  · rfl
  · rfl

/-- C3: one `eat` cycle performs, in this order: acquire the left-index
cell, sleep a non-zero bounded time (150 ms), acquire the right-index
cell, do the work unit (print, sleep 1000 ms, print), then release both
cells at scope end in reverse-acquisition order: right before left. -/
theorem eat_trace (p : Philosopher) :
    eat p =
      [Event.acquire p.left,
       Event.sleepMs 150,
       Event.acquire p.right,
       Event.print (p.name ++ " is eating."),
       Event.sleepMs 1000,
       Event.print (p.name ++ " is done eating."),
       Event.release p.right,
       Event.release p.left] :=
  rfl

/-- C6: a fork acquisition has exactly two outcomes: if the lock is not
poisoned it succeeds, and if it is poisoned the `unwrap` panics and the
owning task dies; there is no retry, no catch, and no other failure
path. -/
theorem acquire_outcomes (b : Bool) :
    (b = false ∧ acquireOutcome b = some ()) ∨
    (b = true ∧ acquireOutcome b = none) := by
  cases b
  · exact Or.inl ⟨rfl, rfl⟩
  · exact Or.inr ⟨rfl, rfl⟩

/-- C8: every philosopher's `left` and `right` index is strictly below
the length of the fork vector (5), so the two indexing operations in
`eat` are always in bounds. -/
theorem indices_in_bounds (p : Philosopher) (hp : p ∈ philosophers) :
    p.left < table.forks.length ∧ p.right < table.forks.length := by
  revert p
  decide

/-- Witness for C8 at the first roster entry. -/
theorem indices_in_bounds_witness :
    (Philosopher.new ("Judith Butler") 0 1).left < table.forks.length ∧
    (Philosopher.new ("Judith Butler") 0 1).right < table.forks.length :=
  indices_in_bounds (Philosopher.new ("Judith Butler") 0 1) (by decide)

/-- C9: every philosopher, the reversed one included, has
`left < right`: each thread acquires the lower-numbered fork first, so
all acquisitions follow one strict global order on fork indices. -/
theorem left_lt_right (p : Philosopher) (hp : p ∈ philosophers) :
    p.left < p.right := by
  revert p
  decide

/-- Witness for C9 at the last (reversed) roster entry. -/
theorem left_lt_right_witness :
    (Philosopher.new ("Michel Foucault") 0 4).left <
      (Philosopher.new ("Michel Foucault") 0 4).right :=
  left_lt_right (Philosopher.new ("Michel Foucault") 0 4) (by decide)

set_option maxHeartbeats 4000000 in
set_option maxRecDepth 100000 in
/-- Auxiliary, checked over the whole state space: a step of an
enabled thread keeps the state below 4^5 and preserves mutual
exclusion. -/
theorem step_preserves :
    ∀ c, c < 1024 → mutExB c = true → ∀ i, i < 5 → enabledB c i = true →
      stepCode c i < 1024 ∧ mutExB (stepCode c i) = true := by
  decide

set_option maxHeartbeats 4000000 in
set_option maxRecDepth 100000 in
/-- Auxiliary, checked over the whole state space: in every mutually
exclusive state, either all threads are done or some thread is
enabled — there is no deadlocked configuration. -/
theorem progress_check :
    ∀ c, c < 1024 → mutExB c = true →
      allDoneB c = true ∨ ((List.range 5).any fun i => enabledB c i) = true := by
  decide

set_option maxHeartbeats 4000000 in
set_option maxRecDepth 100000 in
/-- Auxiliary: a step of an enabled thread raises the progress measure
by exactly one. -/
theorem phase_step :
    ∀ c, c < 1024 → ∀ i, i < 5 → enabledB c i = true →
      phaseSum (stepCode c i) = phaseSum c + 1 := by
  decide

set_option maxHeartbeats 4000000 in
set_option maxRecDepth 100000 in
/-- Auxiliary: the progress measure never exceeds 15. -/
theorem phase_le :
    ∀ c, c < 1024 → phaseSum c ≤ 15 := by
  decide

set_option maxHeartbeats 4000000 in
set_option maxRecDepth 100000 in
/-- Auxiliary: a state whose progress measure is 15 has every thread
done. -/
theorem phase_full_done :
    ∀ c, c < 1024 → 15 ≤ phaseSum c → allDoneB c = true := by
  decide

/-- Every reachable state is below 4^5 and mutually exclusive. -/
theorem reachable_inv : ∀ c, Reachable c → c < 1024 ∧ mutExB c = true := by
  intro c h
  induction h with
  | refl => exact ⟨by decide, by decide⟩
  | tail hab hbc ih =>
    obtain ⟨i, hi, hen, rfl⟩ := hbc
    exact step_preserves _ ih.1 ih.2 i hi hen

/-- From any state of the invariant, a state with all threads done is
reachable in at most `n` steps once `phaseSum c + n` covers 15. -/
theorem completes_aux :
    ∀ n c, c < 1024 → mutExB c = true → 15 ≤ phaseSum c + n →
      ∃ d, Relation.ReflTransGen StepR c d ∧ allDoneB d = true := by
  intro n
  induction n with
  | zero =>
    intro c hlt hmx hph
    exact ⟨c, Relation.ReflTransGen.refl, phase_full_done c hlt (by omega)⟩
  | succ n ih =>
    intro c hlt hmx hph
    by_cases hd : allDoneB c = true
    · exact ⟨c, Relation.ReflTransGen.refl, hd⟩
    · rcases progress_check c hlt hmx with h | hany
      · exact absurd h hd
      · obtain ⟨i, hmem, hen⟩ := List.any_eq_true.mp hany
        have hi : i < 5 := List.mem_range.mp hmem
        obtain ⟨hlt2, hmx2⟩ := step_preserves c hlt hmx i hi hen
        have hph2 : 15 ≤ phaseSum (stepCode c i) + n := by
          rw [phase_step c hlt i hi hen]
          omega
        obtain ⟨d, hrtg, hdone⟩ := ih (stepCode c i) hlt2 hmx2 hph2
        exact ⟨d, Relation.ReflTransGen.head ⟨i, hi, hen, rfl⟩ hrtg, hdone⟩

/-- C1: with the roster's index assignment (one reversed pair), every
run completes.  From every reachable state: a state where no thread
can step has all five threads done, so no execution deadlocks with a
thread holding one fork and waiting forever on the other; completion
stays reachable; and every step raises the bounded progress measure,
so every run is finite and ends with all tasks finished. -/
theorem run_completes (c : Nat) (hc : Reachable c) :
    ((¬ ∃ d, StepR c d) → allDoneB c = true) ∧
    (∃ d, Relation.ReflTransGen StepR c d ∧ allDoneB d = true) ∧
    (∀ d, StepR c d → phaseSum d = phaseSum c + 1) ∧
    phaseSum c ≤ 15 := by
  obtain ⟨hlt, hmx⟩ := reachable_inv c hc
  refine ⟨?_, ?_, ?_, phase_le c hlt⟩
  · intro hstuck
    rcases progress_check c hlt hmx with h | hany
    · exact h
    · obtain ⟨i, hmem, hen⟩ := List.any_eq_true.mp hany
      exact absurd ⟨stepCode c i, i, List.mem_range.mp hmem, hen, rfl⟩ hstuck
  · exact completes_aux 15 c hlt hmx (by omega)
  · intro d hd
    obtain ⟨i, hi, hen, rfl⟩ := hd
    exact phase_step c hlt i hi hen

/-- Witness for C1 at the initial state. -/
theorem run_completes_witness :
    ((¬ ∃ d, StepR 0 d) → allDoneB 0 = true) ∧
    (∃ d, Relation.ReflTransGen StepR 0 d ∧ allDoneB d = true) ∧
    (∀ d, StepR 0 d → phaseSum d = phaseSum 0 + 1) ∧
    phaseSum 0 ≤ 15 :=
  run_completes 0 Relation.ReflTransGen.refl

/-- The fork table always has exactly five cells. -/
theorem forksOf_length (c : Nat) : (forksOf c).length = 5 := by
  simp [forksOf]

/-- C5: the table is created exactly once with five pre-initialized
unlocked cells (`table` and the initial fork state are both five
`none` cells), and its structure never changes during a run: every
step preserves the number of cells and every reachable state still has
exactly the five cells, only their per-cell lock state (the holding
thread) ever varying. -/
theorem table_structure :
    table.forks = List.replicate 5 none ∧
    forksOf 0 = table.forks ∧
    (∀ c d, StepR c d → (forksOf d).length = (forksOf c).length) ∧
    (∀ c, Reachable c → (forksOf c).length = 5) := by
  refine ⟨rfl, rfl, ?_, ?_⟩
  · intro c d _
    rw [forksOf_length, forksOf_length]
  · intro c _
    exact forksOf_length c

/-- Witness for C5: a concrete step from the initial state and the
initial state itself. -/
theorem table_structure_witness :
    (forksOf 1).length = (forksOf 0).length ∧ (forksOf 0).length = 5 :=
  ⟨table_structure.2.2.1 0 1 ⟨0, by decide, by decide, by decide⟩,
   table_structure.2.2.2 0 Relation.ReflTransGen.refl⟩

/-- Taking the pending head line of the `i`-th thread permutes the
flattened collection of pending lines. -/
theorem flatten_extract :
    ∀ (ls : List (List String)) (i : Nat) (x : String) (xs : List String),
      ls.get? i = some (x :: xs) →
      List.Perm ls.flatten (x :: (ls.set i xs).flatten) := by
  intro ls
  induction ls with
  | nil =>
    intro i x xs h
    simp at h
  | cons l rest ih =>
    intro i x xs h
    cases i with
    | zero =>
      simp at h
      subst h
      exact List.Perm.refl _
    | succ n =>
      exact ((ih n x xs h).append_left l).trans List.perm_middle

/-- Any interleaving of the per-thread line lists is a permutation of
their concatenation. -/
theorem inter_perm :
    ∀ (ls : List (List String)) (o : List String),
      Inter ls o → List.Perm o ls.flatten := by
  intro ls o h
  induction h with
  | done ls hnil =>
    have h0 : ls.flatten = [] := List.flatten_eq_nil_iff.mpr hnil
    rw [h0]
  | step ls i x xs o hget hI ih =>
    exact (ih.cons x).trans (flatten_extract ls i x xs hget).symm

/-- Prefixing an exhausted thread does not change the interleavings. -/
theorem inter_cons_nil :
    ∀ (ls : List (List String)) (o : List String),
      Inter ls o → Inter ([] :: ls) o := by
  intro ls o h
  induction h with
  | done ls hnil =>
    refine Inter.done _ ?_
    intro l hl
    rcases List.mem_cons.mp hl with h1 | h2
    · exact h1
    · exact hnil l h2
  | step ls i x xs o hget hI ih =>
    exact Inter.step ([] :: ls) (i + 1) x xs o hget ih

/-- Running the first thread to completion before the rest is one
valid interleaving. -/
theorem inter_prepend :
    ∀ (l : List String) (ls : List (List String)) (o : List String),
      Inter ls o → Inter (l :: ls) (l ++ o) := by
  intro l
  induction l with
  | nil =>
    intro ls o h
    exact inter_cons_nil ls o h
  | cons x l ih =>
    intro ls o h
    exact Inter.step ((x :: l) :: ls) 0 x l (l ++ o) rfl (ih ls o h)

/-- The fully sequential schedule witnesses that interleavings exist. -/
theorem inter_flatten : ∀ ls : List (List String), Inter ls ls.flatten := by
  intro ls
  induction ls with
  | nil => exact Inter.done [] (fun l hl => absurd hl (List.not_mem_nil l))
  | cons l rest ih => exact inter_prepend l rest rest.flatten ih

/-- C4: a complete run emits exactly 2 x 5 = 10 lines and nothing
else: whatever interleaving the scheduler produces, the output has
length 10, contains exactly one "(name) is eating." and exactly one
"(name) is done eating." line per philosopher, contains no other
line, and within each thread the "is eating." line comes first. -/
theorem run_output (o : List String)
    (ho : Inter (philosophers.map outputLines) o) :
    o.length = 10 ∧
    (∀ p, p ∈ philosophers →
      o.count (p.name ++ " is eating.") = 1 ∧
      o.count (p.name ++ " is done eating.") = 1) ∧
    (∀ s, s ∈ o → ∃ p, p ∈ philosophers ∧
      (s = p.name ++ " is eating." ∨ s = p.name ++ " is done eating.")) ∧
    (∀ p, p ∈ philosophers →
      outputLines p = [p.name ++ " is eating.", p.name ++ " is done eating."]) := by
  have hperm := inter_perm _ _ ho
  refine ⟨?_, ?_, ?_, by decide⟩
  · rw [hperm.length_eq]
    decide
  · have key : ∀ p, p ∈ philosophers →
        ((philosophers.map outputLines).flatten.count (p.name ++ " is eating.") = 1 ∧
         (philosophers.map outputLines).flatten.count (p.name ++ " is done eating.") = 1) := by
      decide
    intro p hp
    rw [hperm.count_eq, hperm.count_eq]
    exact key p hp
  · have key : ∀ s, s ∈ (philosophers.map outputLines).flatten →
        ∃ p, p ∈ philosophers ∧
          (s = p.name ++ " is eating." ∨ s = p.name ++ " is done eating.") := by
      decide
    intro s hs
    exact key s (hperm.mem_iff.mp hs)

/-- Witness for C4 at the sequential interleaving. -/
theorem run_output_witness :
    ((philosophers.map outputLines).flatten).length = 10 ∧
    (∀ p, p ∈ philosophers →
      ((philosophers.map outputLines).flatten).count (p.name ++ " is eating.") = 1 ∧
      ((philosophers.map outputLines).flatten).count (p.name ++ " is done eating.") = 1) :=
  ⟨(run_output ((philosophers.map outputLines).flatten) (inter_flatten _)).1,
   (run_output ((philosophers.map outputLines).flatten) (inter_flatten _)).2.1⟩

/-- C7: `main` spawns exactly one thread per roster entry, all five
sharing the same table, and the join loop returns normally exactly
when every spawned thread completed; if some thread panicked, the
`join().unwrap()` makes the driver itself panic instead of silently
continuing. -/
theorem spawn_join :
    handles.length = philosophers.length ∧
    handles.length = 5 ∧
    (∀ h, h ∈ handles → h.2 = table) ∧
    (∀ rs : List (Option Unit),
      joinAll rs = some () ↔ ∀ r, r ∈ rs → r = some ()) := by
  refine ⟨rfl, rfl, by decide, ?_⟩
  intro rs
  induction rs with
  | nil => simp [joinAll]
  | cons r rs ih =>
    cases r with
    | none =>
      constructor
      · intro h
        exact absurd h (by simp [joinAll])
      · intro h
        exact absurd (h none (List.mem_cons_self none rs)) (by simp)
    | some u =>
      constructor
      · intro h r hr
        rcases List.mem_cons.mp hr with h1 | h2
        · cases u
          exact h1
        · exact ih.mp (by simpa [joinAll] using h) r h2
      · intro h
        have hrs : joinAll rs = some () :=
          ih.mpr (fun r hr => h r (List.mem_cons_of_mem _ hr))
        simpa [joinAll] using hrs

/-- Witness for C7: the first handle shares the table, and the empty
result list joins cleanly. -/
theorem spawn_join_witness :
    (Philosopher.new ("Judith Butler") 0 1, table).2 = table ∧
    (joinAll [] = some () ↔ ∀ r, r ∈ ([] : List (Option Unit)) → r = some ()) :=
  ⟨spawn_join.2.2.1 (Philosopher.new ("Judith Butler") 0 1, table) (by decide),
   spawn_join.2.2.2 []⟩

end DiningPhilosophers
